import Mathlib

/-!
Verification development for the capability-mediation layer of the
secure-app-framework repository.

Strings from the Rust sources are embedded as `List Char` (`Str`), so that
every definition is executable by the kernel.  Machine integers (`u64` in the
audit chain) are embedded as `Nat` with explicit reduction modulo `2 ^ 64`.

Embedded source functions (crate paths refer to the repository):
* `sanitize_rel_path`, `list_dir`, `read_text`, `write_text`, `fetch_json`,
  `CoreError` — `crates/core/src/lib.rs`;
* `Policy`, `Policy.is_url_allowed` — `crates/policy/src/lib.rs`;
* `ChainHash`/`chainUpdate`, `AuditLog`, `AuditLog.append` —
  `crates/audit/src/lib.rs` (the chain update is Rust's
  `DefaultHasher` = SipHash-1-3 with zero keys, modelled bit-for-bit);
* `StdLogHost.event`, `StubNetHost.get_text`, `brokerPolicy` —
  `crates/broker/src/main.rs`.

Mediated operations are embedded in a trace-passing style: each operation
returns its result together with the list of provider calls it made and the
list of audit messages it emitted, so that claims about "no provider call"
and "no audit event" are directly statable.
-/

-- # Strings as character lists

abbrev Str := List Char

/-- Coerce a Lean string literal to the `List Char` embedding. -/
def str (s : String) : Str := s.data

def slash : Char := '/'

/-- The current-directory path segment `.`. -/
def dotSeg : Str := str "."

/-- The parent-directory path segment `..`. -/
def dotdotSeg : Str := str ".."

/-- Decimal rendering of a natural number, as used by Rust's
`format!("{}", n)` for `u64` values. -/
def natToStr (n : Nat) : Str := Nat.toDigits 10 n

-- # Path sanitizer (crates/core/src/lib.rs, `sanitize_rel_path`)

/-- Split a path string at every `/`, keeping empty pieces (so `"a//b"`
yields `["a", "", "b"]` and `""` yields `[""]`). -/
def splitOnSlash : Str → List Str
  | [] => [[]]
  | c :: rest =>
    if c = slash then [] :: splitOnSlash rest
    else
      match splitOnSlash rest with
      | [] => [[c]]
      | s :: ss => (c :: s) :: ss

/-- Unix `Path::is_absolute`: the path has a root, i.e. begins with `/`. -/
def isAbsolute : Str → Bool
  | c :: _ => c == slash
  | [] => false

/-- `std::path::Component`, restricted to the variants that can occur in a
relative Unix path (`Prefix` is Windows-only and `RootDir` occurs only in
absolute paths, which `sanitize_rel_path` rejects before iterating). -/
inductive PathComp
  | curDir
  | parentDir
  | normal (seg : Str)
deriving DecidableEq

/-- Classify one non-empty path segment the way `Path::components` does. -/
def classifySeg (s : Str) : PathComp :=
  if s = dotdotSeg then PathComp.parentDir
  else if s = dotSeg then PathComp.curDir
  else PathComp.normal s

/-- `Path::components` on Unix: repeated separators and trailing separators
are normalized away (empty pieces dropped), and `.` segments are normalized
away except when the first component of the path is itself `.`. -/
def pathComponents (p : Str) : List PathComp :=
  match (splitOnSlash p).filter (fun s => !(s == [])) with
  | [] => []
  | first :: rest =>
    classifySeg first :: (rest.filter (fun s => !(s == dotSeg))).map classifySeg

/-- The component loop of `sanitize_rel_path`: collect `Normal` segments,
skip `CurDir`, fail on `ParentDir` (and on an empty `Normal` segment, which
the Rust code also guards against). -/
def sanitizeParts : List PathComp → Option (List Str)
  | [] => some []
  | PathComp.normal s :: rest =>
    if s = [] then none else (sanitizeParts rest).map (fun ps => s :: ps)
  | PathComp.curDir :: rest => sanitizeParts rest
  | PathComp.parentDir :: _ => none

/-- Join segments with the canonical forward-slash separator
(`parts.join("/")`). -/
def joinSlash : List Str → Str
  | [] => []
  | [s] => s
  | s :: rest => s ++ slash :: joinSlash rest

/-- `sanitize_rel_path` (crates/core/src/lib.rs lines 62-83): reject absolute
paths, walk the components rejecting parent traversals and skipping `.`,
and join the surviving segments with `/`. -/
def sanitize_rel_path (path : Str) : Option Str :=
  if isAbsolute path then none
  else (sanitizeParts (pathComponents path)).map joinSlash

-- # Errors and mediated filesystem operations (crates/core/src/lib.rs)

/-- `CoreError` (crates/core/src/lib.rs lines 12-17).  Note the enum has
exactly these three variants; in particular there is no policy-denial
variant. -/
inductive CoreError
  | InvalidPath
  | Fs (msg : Str)
  | Net (msg : Str)
deriving DecidableEq

/-- The `FsHost` capability interface: each method either returns a value or
a provider error string. -/
structure FsHost where
  list_dir : Str → Except Str (List Str)
  read_text : Str → Except Str Str
  write_text : Str → Str → Except Str Unit

/-- The `NetHost` capability interface. -/
structure NetHost where
  get_text : Str → Except Str Str

/-- One call made to the filesystem provider, recorded for tracing. -/
inductive ProviderCall
  | listDir (path : Str)
  | readText (path : Str)
  | writeText (path : Str) (content : Str)
deriving DecidableEq

/-- Result of a mediated filesystem operation together with the observable
trace: the provider calls made and the audit messages sent to
`LogHost::event`. -/
structure MediatedResult (α : Type) where
  result : Except CoreError α
  fsCalls : List ProviderCall
  audit : List Str

-- ## String ordering (Rust `str` Ord: lexicographic, used by `sort`)

/-- Lexicographic order on strings, mirroring Rust's `Ord` for `String`
(byte order on UTF-8 equals code-point order). -/
def strLeB : Str → Str → Bool
  | [], _ => true
  | _ :: _, [] => false
  | a :: as, b :: bs => if a < b then true else if b < a then false else strLeB as bs

/-- Insert into a sorted list, keeping order (helper for `sortStrs`). -/
def insertStr (s : Str) : List Str → List Str
  | [] => [s]
  | t :: ts => if strLeB s t then s :: t :: ts else t :: insertStr s ts

/-- `Vec::sort` for strings: produce the ascending stable sort.  For the
total antisymmetric string order the sorted permutation is unique, so
insertion sort embeds Rust's (merge-based) stable sort faithfully. -/
def sortStrs : List Str → List Str
  | [] => []
  | s :: ss => insertStr s (sortStrs ss)

/-- `Vec::dedup` on the tail: drop elements equal to the previous kept
element. -/
def dedupFrom (prev : Str) : List Str → List Str
  | [] => []
  | a :: rest => if a = prev then dedupFrom prev rest else a :: dedupFrom a rest

/-- `Vec::dedup`: remove consecutive duplicate entries, keeping the first of
each run. -/
def dedupRun : List Str → List Str
  | [] => []
  | a :: rest => a :: dedupFrom a rest

-- ## UTF-8 byte length (Rust `str::len` counts UTF-8 bytes)

/-- UTF-8 encoding of one scalar value. -/
def utf8Char (c : Char) : List Nat :=
  let n := c.toNat
  if n < 0x80 then [n]
  else if n < 0x800 then
    [0xC0 ||| (n >>> 6), 0x80 ||| (n &&& 0x3F)]
  else if n < 0x10000 then
    [0xE0 ||| (n >>> 12), 0x80 ||| ((n >>> 6) &&& 0x3F), 0x80 ||| (n &&& 0x3F)]
  else
    [0xF0 ||| (n >>> 18), 0x80 ||| ((n >>> 12) &&& 0x3F),
     0x80 ||| ((n >>> 6) &&& 0x3F), 0x80 ||| (n &&& 0x3F)]

/-- UTF-8 bytes of a string (`str::as_bytes`). -/
def utf8Encode (s : Str) : List Nat := (s.map utf8Char).flatten

-- ## The mediated operations (crates/core/src/lib.rs lines 89-123)

/-- `list_dir` (lines 89-97): sanitize, call the provider, sort and dedup the
entries, emit one audit event. -/
def list_dir (fs : FsHost) (path : Str) : MediatedResult (List Str) :=
  match sanitize_rel_path path with
  | none => ⟨Except.error CoreError.InvalidPath, [], []⟩
  | some rel =>
    match fs.list_dir rel with
    | Except.error e => ⟨Except.error (CoreError.Fs e), [ProviderCall.listDir rel], []⟩
    | Except.ok entries =>
      ⟨Except.ok (dedupRun (sortStrs entries)), [ProviderCall.listDir rel],
       [str "fs.list_dir path=" ++ rel]⟩

/-- `read_text` (lines 99-105): sanitize, call the provider, emit one audit
event recording the path and the byte length of the text. -/
def read_text (fs : FsHost) (path : Str) : MediatedResult Str :=
  match sanitize_rel_path path with
  | none => ⟨Except.error CoreError.InvalidPath, [], []⟩
  | some rel =>
    match fs.read_text rel with
    | Except.error e => ⟨Except.error (CoreError.Fs e), [ProviderCall.readText rel], []⟩
    | Except.ok text =>
      ⟨Except.ok text, [ProviderCall.readText rel],
       [str "fs.read_text path=" ++ rel ++ str " bytes=" ++
        natToStr (utf8Encode text).length]⟩

/-- `write_text` (lines 107-115): sanitize, call the provider, emit one audit
event recording the path and the byte length of the content. -/
def write_text (fs : FsHost) (path : Str) (content : Str) : MediatedResult Unit :=
  match sanitize_rel_path path with
  | none => ⟨Except.error CoreError.InvalidPath, [], []⟩
  | some rel =>
    match fs.write_text rel content with
    | Except.error e =>
      ⟨Except.error (CoreError.Fs e), [ProviderCall.writeText rel content], []⟩
    | Except.ok _ =>
      ⟨Except.ok (), [ProviderCall.writeText rel content],
       [str "fs.write_text path=" ++ rel ++ str " bytes=" ++
        natToStr (utf8Encode content).length]⟩

/-- Result and audit trace of `fetch_json` (it makes no filesystem calls). -/
structure FetchResult where
  result : Except CoreError Str
  audit : List Str

/-- `fetch_json` (lines 117-123): call the network provider directly (no
policy re-check here) and emit one audit event. -/
def fetch_json (net : NetHost) (url : Str) : FetchResult :=
  match net.get_text url with
  | Except.error e => ⟨Except.error (CoreError.Net e), []⟩
  | Except.ok body =>
    ⟨Except.ok body,
     [str "net.get_text url=" ++ url ++ str " bytes=" ++
      natToStr (utf8Encode body).length]⟩

-- # Policy engine (crates/policy/src/lib.rs)

/-- `Policy` (crates/policy/src/lib.rs lines 3-7). -/
structure Policy where
  allowed_domains : List Str
  max_bytes : Nat

/-- `Policy::new` (lines 10-15): empty allowlist, 10 MiB response bound. -/
def Policy.new : Policy := ⟨[], 10 * 1024 * 1024⟩

/-- `Policy::with_allowed_domains` (lines 17-20). -/
def Policy.with_allowed_domains (pol : Policy) (domains : List Str) : Policy :=
  { pol with allowed_domains := domains }

/-- `Policy::is_url_allowed` (lines 22-29): the URL starts with
`https://{d}/` or equals `https://{d}` for some allowed domain `d`. -/
def Policy.is_url_allowed (pol : Policy) (url : Str) : Bool :=
  pol.allowed_domains.any fun d =>
    List.isPrefixOf (str "https://" ++ d ++ [slash]) url || url == str "https://" ++ d

-- # Audit chain (crates/audit/src/lib.rs)
--
-- `ChainHash::update` hashes the previous `u64` state and then the message
-- with a fresh `std::collections::hash_map::DefaultHasher`, i.e. SipHash-1-3
-- with both keys zero.  `Hash for u64` feeds the 8 little-endian state bytes
-- and `Hash for str` feeds the UTF-8 bytes followed by a `0xff` marker byte.
-- The SipHash state words are `u64`, embedded as `Nat` reduced mod `2 ^ 64`.

def M64 : Nat := 2 ^ 64

/-- Wrapping 64-bit addition. -/
def wrapAdd (a b : Nat) : Nat := (a + b) % M64

/-- 64-bit left rotation. -/
def rotl64 (x n : Nat) : Nat := ((x <<< n) % M64) ||| (x >>> (64 - n))

/-- The four 64-bit SipHash state words. -/
structure SipState where
  v0 : Nat
  v1 : Nat
  v2 : Nat
  v3 : Nat

/-- One SIPROUND. -/
def sipRound (s : SipState) : SipState :=
  let v0 := wrapAdd s.v0 s.v1
  let v1 := rotl64 s.v1 13
  let v1 := v1 ^^^ v0
  let v0 := rotl64 v0 32
  let v2 := wrapAdd s.v2 s.v3
  let v3 := rotl64 s.v3 16
  let v3 := v3 ^^^ v2
  let v0 := wrapAdd v0 v3
  let v3 := rotl64 v3 21
  let v3 := v3 ^^^ v0
  let v2 := wrapAdd v2 v1
  let v1 := rotl64 v1 17
  let v1 := v1 ^^^ v2
  let v2 := rotl64 v2 32
  ⟨v0, v1, v2, v3⟩

/-- Fold one message word into the state: one compression round per word
(SipHash-1-3 has c = 1). -/
def sipWord (s : SipState) (m : Nat) : SipState :=
  let s := { s with v3 := s.v3 ^^^ m }
  let s := sipRound s
  { s with v0 := s.v0 ^^^ m }

/-- Little-endian value of a byte list. -/
def leWord : List Nat → Nat
  | [] => 0
  | b :: rest => b + 256 * leWord rest

/-- Consume all full 8-byte words of the input. -/
def sipWords (s : SipState) : List Nat → SipState
  | b0 :: b1 :: b2 :: b3 :: b4 :: b5 :: b6 :: b7 :: rest =>
    sipWords (sipWord s (leWord [b0, b1, b2, b3, b4, b5, b6, b7])) rest
  | _ => s

/-- The trailing bytes after all full 8-byte words. -/
def sipTail : List Nat → List Nat
  | _ :: _ :: _ :: _ :: _ :: _ :: _ :: _ :: rest => sipTail rest
  | bs => bs

/-- SipHash-1-3 with both keys zero, as implemented by Rust's
`DefaultHasher` (`library/core/src/hash/sip.rs`): initial words are the
SipHash constants, the final word packs `length % 256` into the top byte,
and finalization xors `0xee` into `v2` (Rust's deviation from reference
SipHash) followed by d = 3 rounds. -/
def sipHash13 (bytes : List Nat) : Nat :=
  let s0 : SipState :=
    ⟨0x736f6d6570736575, 0x646f72616e646f6d, 0x6c7967656e657261, 0x7465646279746573⟩
  let s := sipWords s0 bytes
  let b := (((bytes.length % 256) <<< 56) ||| leWord (sipTail bytes)) % M64
  let s := sipWord s b
  let s := { s with v2 := s.v2 ^^^ 0xee }
  let s := sipRound (sipRound (sipRound s))
  (s.v0 ^^^ s.v1 ^^^ s.v2 ^^^ s.v3) % M64

/-- The 8 little-endian bytes of a `u64` (`Hash for u64`). -/
def le64Bytes (x : Nat) : List Nat :=
  [x % 256, x >>> 8 % 256, x >>> 16 % 256, x >>> 24 % 256,
   x >>> 32 % 256, x >>> 40 % 256, x >>> 48 % 256, x >>> 56 % 256]

/-- `ChainHash::update` (crates/audit/src/lib.rs lines 17-22): hash the old
state, then the message (UTF-8 bytes plus the `0xff` marker `Hash for str`
appends), with a fresh `DefaultHasher`; the new state is `finish()`. -/
def chainUpdate (state : Nat) (msg : Str) : Nat :=
  sipHash13 (le64Bytes state ++ utf8Encode msg ++ [0xff])

/-- `ChainHash::new` (line 14-16): the accumulator starts at 0. -/
def chainNew : Nat := 0

/-- The serialized audit entry `format!("{}|{}\n", state, message)`. -/
def auditLine (acc : Nat) (msg : Str) : Str :=
  natToStr acc ++ '|' :: msg ++ ['\n']

/-- `AuditLog`: the append-mode sink (modelled by the list of lines it
holds, which `new` does not truncate) and the chain state. -/
structure AuditLog where
  file : List Str
  state : Nat

/-- `AuditLog::new` (lines 32-46): open the sink in append mode — whatever
lines it already holds stay — and seed the chain state with
`ChainHash::new()`. -/
def AuditLog.new (existing : List Str) : AuditLog := ⟨existing, chainNew⟩

/-- Outcome of the sink I/O performed by one `append` call: both
`write_all` and `flush` succeed, `write_all` fails, or `write_all` succeeds
and `flush` fails. -/
inductive IoOutcome
  | ok
  | writeFail (e : Str)
  | flushFail (e : Str)

/-- `AuditLog::append` (lines 48-55): fold the message into the chain state
FIRST, then format the line and attempt the write and flush.  On a write
failure no line reaches the sink; on a flush failure the line is in the
buffer; in both cases the error string is returned — but the state has
already advanced. -/
def AuditLog.append (log : AuditLog) (message : Str) (io : IoOutcome) :
    AuditLog × Except Str Unit :=
  let st := chainUpdate log.state message
  let line := auditLine st message
  match io with
  | IoOutcome.ok => (⟨log.file ++ [line], st⟩, Except.ok ())
  | IoOutcome.writeFail e => (⟨log.file, st⟩, Except.error e)
  | IoOutcome.flushFail e => (⟨log.file ++ [line], st⟩, Except.error e)

/-- The chain fold of `append`, abstracted over the update function `u`
(the spec treats the one-way function as a pluggable strategy): the list of
successive accumulator values produced from initial state `s`. -/
def chainAccsFromU (u : Nat → Str → Nat) (s : Nat) : List Str → List Nat
  | [] => []
  | m :: ms => u s m :: chainAccsFromU u (u s m) ms

/-- The accumulator values the program stores for a message sequence
appended to a fresh log: the chain fold with `ChainHash::update` from
`ChainHash::new()`. -/
def chainAccs (msgs : List Str) : List Nat := chainAccsFromU chainUpdate chainNew msgs

/-- The accumulator values actually produced by successive successful
`append` calls on a log. -/
def appendAccs (log : AuditLog) : List Str → List Nat
  | [] => []
  | m :: ms =>
    let next := (AuditLog.append log m IoOutcome.ok).1
    next.state :: appendAccs next ms

-- # Broker hosts (crates/broker/src/main.rs)

/-- `StdLogHost::event` (crates/broker/src/main.rs lines 77-83): forward the
message to `AuditLog::append` under the mutex and DISCARD the result
(`let _ = g.append(message);`) — the `LogHost` interface has no error
channel. -/
def StdLogHost.event (log : AuditLog) (io : IoOutcome) (message : Str) : AuditLog :=
  (AuditLog.append log message io).1

/-- Deliver the audit messages emitted by a mediated operation to the
`StdLogHost`, each write sharing the given sink outcome. -/
def runAudit (log : AuditLog) (io : IoOutcome) : List Str → AuditLog
  | [] => log
  | m :: ms => runAudit (StdLogHost.event log io m) io ms

/-- A mediated operation as the broker runs it: the core result is returned
to the caller unchanged while the audit messages flow into the
`StdLogHost`-backed log. -/
def runMediated {α : Type} (m : MediatedResult α) (log : AuditLog) (io : IoOutcome) :
    Except CoreError α × AuditLog :=
  (m.result, runAudit log io m.audit)

/-- `StubNetHost::get_text` (crates/broker/src/main.rs lines 88-98): refuse
URLs the policy does not allow, serve the one stubbed route, fail
otherwise. -/
def StubNetHost.get_text (pol : Policy) (url : Str) : Except Str Str :=
  if !(Policy.is_url_allowed pol url) then Except.error (str "blocked by policy")
  else if url == str "https://example.org/data.json" then
    Except.ok (str "\x7b\"example\":true\x7d")
  else Except.error (str "network not implemented")

/-- The `StubNetHost` wrapped as a `NetHost` capability. -/
def stubNet (pol : Policy) : NetHost := ⟨StubNetHost.get_text pol⟩

/-- The policy the broker builds at startup (main.rs lines 204-205). -/
def brokerPolicy : Policy :=
  Policy.with_allowed_domains Policy.new [str "example.org", str "httpbin.org"]

-- # Concrete fixtures used by witnesses and counterexamples

/-- An in-memory filesystem provider double with one directory `docs`
holding `readme.txt`; its directory listing is deliberately unsorted and
duplicated. -/
def fsFix : FsHost :=
  { list_dir := fun p =>
      if p == str "docs" then Except.ok [str "b.txt", str "a.txt", str "b.txt"]
      else Except.error (str "no such directory"),
    read_text := fun p =>
      if p == str "docs/readme.txt" then Except.ok (str "hello")
      else Except.error (str "no such file"),
    write_text := fun _ _ => Except.ok () }

/-- A policy whose allowed domains are exactly `["example.org"]`. -/
def examplePolicy : Policy :=
  Policy.with_allowed_domains Policy.new [str "example.org"]

/-- An injective encoding of strings into naturals (fixture for the amended
tamper-detection claim). -/
def strEnc : Str → Nat
  | [] => 0
  | c :: cs => Nat.pair c.toNat (strEnc cs) + 1

/-- A chain-update function that is injective in each argument — the shape a
cryptographic accumulator is assumed to have (fixture for the amended
tamper-detection claim). -/
def injUpd (s : Nat) (m : Str) : Nat := Nat.pair s (strEnc m)

-- # Theorems: path sanitizer

theorem splitOnSlash_ne_nil (p : Str) : splitOnSlash p ≠ [] := by
  cases p with
  | nil => simp [splitOnSlash]
  | cons c rest =>
    simp only [splitOnSlash]
    split
    · simp
    · cases h : splitOnSlash rest <;> simp

theorem slash_not_mem_splitOnSlash (p : Str) :
    ∀ s ∈ splitOnSlash p, slash ∉ s := by
  induction p with
  | nil => simp [splitOnSlash]
  | cons c rest ih =>
    intro s hs
    simp only [splitOnSlash] at hs
    by_cases hc : c = slash
    · simp [hc] at hs
      rcases hs with h | h
      · simp [h]
      · exact ih s h
    · simp [hc] at hs
      cases hsplit : splitOnSlash rest with
      | nil => exact absurd hsplit (splitOnSlash_ne_nil rest)
      | cons s0 ss =>
        rw [hsplit] at hs
        simp at hs
        rcases hs with h | h
        · subst h
          intro hmem
          rcases List.mem_cons.mp hmem with h' | h'
          · exact hc h'.symm
          · exact ih s0 (hsplit ▸ List.mem_cons_self s0 ss) h'
        · exact ih s (hsplit ▸ List.mem_cons_of_mem s0 h)

theorem sanitizeParts_parentDir {cs : List PathComp}
    (h : PathComp.parentDir ∈ cs) : sanitizeParts cs = none := by
  induction cs with
  | nil => simp at h
  | cons c rest ih =>
    cases c with
    | curDir => simp at h; simpa [sanitizeParts] using ih h
    | parentDir => simp [sanitizeParts]
    | normal s =>
      simp at h
      simp [sanitizeParts, ih h]

theorem classifySeg_dotdot : classifySeg dotdotSeg = PathComp.parentDir := by
  simp [classifySeg]

theorem parentDir_mem_pathComponents {p : Str}
    (h : dotdotSeg ∈ splitOnSlash p) : PathComp.parentDir ∈ pathComponents p := by
  have hmem : dotdotSeg ∈ (splitOnSlash p).filter (fun s => !(s == [])) := by
    refine List.mem_filter.mpr ⟨h, by decide⟩
  cases hb : (splitOnSlash p).filter (fun s => !(s == [])) with
  | nil => rw [hb] at hmem; simp at hmem
  | cons first rest =>
    rw [hb] at hmem
    simp only [pathComponents, hb]
    rcases List.mem_cons.mp hmem with h1 | h1
    · rw [← h1, classifySeg_dotdot]
      exact List.mem_cons_self _ _
    · have : dotdotSeg ∈ rest.filter (fun s => !(s == dotSeg)) :=
        List.mem_filter.mpr ⟨h1, by decide⟩
      exact List.mem_cons_of_mem _
        (List.mem_map.mpr ⟨dotdotSeg, this, classifySeg_dotdot⟩)

theorem sanitize_none_of_dotdot {p : Str}
    (h : dotdotSeg ∈ splitOnSlash p) : sanitize_rel_path p = none := by
  unfold sanitize_rel_path
  split
  · rfl
  · rw [sanitizeParts_parentDir (parentDir_mem_pathComponents h)]
    rfl

theorem sanitize_none_of_absolute {p : Str}
    (h : isAbsolute p = true) : sanitize_rel_path p = none := by
  simp [sanitize_rel_path, h]

theorem sanitizeParts_map_normal {l : List Str}
    (h : ∀ s ∈ l, s ≠ [] ∧ s ≠ dotSeg ∧ s ≠ dotdotSeg) :
    sanitizeParts (l.map classifySeg) = some l := by
  induction l with
  | nil => rfl
  | cons s t ih =>
    obtain ⟨hne, hdot, hdd⟩ := h s (List.mem_cons_self s t)
    have hcl : classifySeg s = PathComp.normal s := by
      simp [classifySeg, hdot, hdd]
    simp only [List.map_cons, hcl, sanitizeParts, if_neg hne]
    rw [ih (fun x hx => h x (List.mem_cons_of_mem s hx))]
    rfl

theorem sanitize_characterization {p : Str} (habs : isAbsolute p = false)
    (hdd : dotdotSeg ∉ splitOnSlash p) :
    sanitize_rel_path p =
      some (joinSlash (((splitOnSlash p).filter (fun s => !(s == []))).filter
        (fun s => !(s == dotSeg)))) := by
  unfold sanitize_rel_path
  rw [habs]
  simp only [Bool.false_eq_true, if_false]
  cases hb : (splitOnSlash p).filter (fun s => !(s == [])) with
  | nil =>
    simp only [pathComponents, hb, sanitizeParts, List.filter_nil]
    rfl
  | cons first rest =>
    have hmemfirst : first ∈ (splitOnSlash p).filter (fun s => !(s == [])) := by
      rw [hb]; exact List.mem_cons_self _ _
    have hfirst_split : first ∈ splitOnSlash p := (List.mem_filter.mp hmemfirst).1
    have hfirst_ne : first ≠ [] := by
      have := (List.mem_filter.mp hmemfirst).2
      simpa using this
    have hfirst_dd : first ≠ dotdotSeg := fun h => hdd (h ▸ hfirst_split)
    have hrest : ∀ x ∈ rest.filter (fun s => !(s == dotSeg)),
        x ≠ [] ∧ x ≠ dotSeg ∧ x ≠ dotdotSeg := by
      intro x hx
      obtain ⟨hx1, hx2⟩ := List.mem_filter.mp hx
      have hxf : x ∈ (splitOnSlash p).filter (fun s => !(s == [])) := by
        rw [hb]; exact List.mem_cons_of_mem _ hx1
      obtain ⟨hxs, hxe⟩ := List.mem_filter.mp hxf
      refine ⟨by simpa using hxe, by simpa using hx2, fun h => hdd (h ▸ hxs)⟩
    simp only [pathComponents, hb]
    by_cases hfd : first = dotSeg
    · have hcl : classifySeg first = PathComp.curDir := by
        simp only [classifySeg, hfd]
        rw [if_neg (by decide)]
        simp
      simp only [hcl, sanitizeParts, sanitizeParts_map_normal hrest,
        List.filter_cons, hfd]
      simp
    · have hcl : classifySeg first = PathComp.normal first := by
        simp [classifySeg, hfd, hfirst_dd]
      simp only [hcl, sanitizeParts, if_neg hfirst_ne,
        sanitizeParts_map_normal hrest, List.filter_cons]
      have : (!(first == dotSeg)) = true := by simpa using hfd
      rw [this]
      simp

theorem joinSlash_not_absolute {segs : List Str}
    (h : ∀ s ∈ segs, s ≠ [] ∧ slash ∉ s) : isAbsolute (joinSlash segs) = false := by
  cases segs with
  | nil => rfl
  | cons s rest =>
    obtain ⟨hne, hns⟩ := h s (List.mem_cons_self s rest)
    cases s with
    | nil => exact absurd rfl hne
    | cons c cs =>
      have hc : c ≠ slash := fun hcs => hns (hcs ▸ List.mem_cons_self c cs)
      cases rest with
      | nil => simpa [joinSlash, isAbsolute] using hc
      | cons t ts => simpa [joinSlash, isAbsolute] using hc

/-- C1: any input path containing a `..` segment or an absolute-path prefix
makes every mediated filesystem operation return `InvalidPath` with no
provider call and no audit event. -/
theorem sanitize_guard_blocks_mediated_ops (fs : FsHost) (p : Str) (c : Str)
    (h : dotdotSeg ∈ splitOnSlash p ∨ isAbsolute p = true) :
    list_dir fs p = ⟨Except.error CoreError.InvalidPath, [], []⟩ ∧
    read_text fs p = ⟨Except.error CoreError.InvalidPath, [], []⟩ ∧
    write_text fs p c = ⟨Except.error CoreError.InvalidPath, [], []⟩ := by
  have hnone : sanitize_rel_path p = none := by
    rcases h with h | h
    · exact sanitize_none_of_dotdot h
    · exact sanitize_none_of_absolute h
  exact ⟨by simp [list_dir, hnone], by simp [read_text, hnone],
    by simp [write_text, hnone]⟩

theorem sanitize_guard_blocks_mediated_ops_witness :
    (dotdotSeg ∈ splitOnSlash (str "../../etc/passwd") ∨
      isAbsolute (str "../../etc/passwd") = true) ∧
    (list_dir fsFix (str "../../etc/passwd") =
        ⟨Except.error CoreError.InvalidPath, [], []⟩ ∧
      read_text fsFix (str "../../etc/passwd") =
        ⟨Except.error CoreError.InvalidPath, [], []⟩ ∧
      write_text fsFix (str "../../etc/passwd") [] =
        ⟨Except.error CoreError.InvalidPath, [], []⟩) :=
  ⟨Or.inl (by decide),
    sanitize_guard_blocks_mediated_ops fsFix (str "../../etc/passwd") []
      (Or.inl (by decide))⟩

/-- C2: every successful sanitization yields a slash-joined relative string
whose segments are non-empty, are not `..`, and contain no separator; and a
segment of only dots such as `...` is kept as an ordinary name. -/
theorem sanitize_output_invariants :
    (∀ p out, sanitize_rel_path p = some out →
      ∃ segs, out = joinSlash segs ∧ isAbsolute out = false ∧
        ∀ s ∈ segs, s ≠ [] ∧ s ≠ dotdotSeg ∧ slash ∉ s) ∧
    sanitize_rel_path (str "a/.../b") = some (str "a/.../b") := by
  constructor
  · intro p out hout
    have habs : isAbsolute p = false := by
      cases habs : isAbsolute p
      · rfl
      · rw [sanitize_none_of_absolute habs] at hout; cases hout
    have hdd : dotdotSeg ∉ splitOnSlash p := by
      intro hmem
      rw [sanitize_none_of_dotdot hmem] at hout
      cases hout
    rw [sanitize_characterization habs hdd] at hout
    have hsegs : ∀ s ∈ ((splitOnSlash p).filter (fun s => !(s == []))).filter
        (fun s => !(s == dotSeg)), s ≠ [] ∧ s ≠ dotdotSeg ∧ slash ∉ s := by
      intro s hs
      obtain ⟨hs1, _⟩ := List.mem_filter.mp hs
      obtain ⟨hs2, hs3⟩ := List.mem_filter.mp hs1
      exact ⟨by simpa using hs3, fun h => hdd (h ▸ hs2),
        slash_not_mem_splitOnSlash p s hs2⟩
    refine ⟨_, (Option.some.inj hout).symm, ?_, hsegs⟩
    rw [(Option.some.inj hout).symm]
    exact joinSlash_not_absolute (fun s hs => ⟨(hsegs s hs).1, (hsegs s hs).2.2⟩)
  · decide

theorem sanitize_output_invariants_witness :
    sanitize_rel_path (str "a/b") = some (str "a/b") ∧
    ∃ segs, str "a/b" = joinSlash segs ∧ isAbsolute (str "a/b") = false ∧
      ∀ s ∈ segs, s ≠ [] ∧ s ≠ dotdotSeg ∧ slash ∉ s :=
  ⟨by decide, sanitize_output_invariants.1 (str "a/b") (str "a/b") (by decide)⟩

/-- C6 counterexample: `"a//b"` is a non-empty input whose split contains an
empty segment, yet `sanitize_rel_path` accepts it (returning `"a/b"`)
instead of rejecting it with `InvalidPath`. -/
theorem empty_segment_counterexample :
    str "a//b" ≠ [] ∧ [] ∈ splitOnSlash (str "a//b") ∧
    sanitize_rel_path (str "a//b") = some (str "a/b") := by decide

/-- C6 amended: for non-absolute inputs without `..` segments, empty
segments (from doubled or trailing separators) and `.` segments are
normalized away rather than rejected, and the empty string yields the
workspace root (zero segments). -/
theorem empty_segment_amended (p : Str)
    (habs : isAbsolute p = false) (hdd : dotdotSeg ∉ splitOnSlash p) :
    sanitize_rel_path p =
      some (joinSlash (((splitOnSlash p).filter (fun s => !(s == []))).filter
        (fun s => !(s == dotSeg)))) ∧
    sanitize_rel_path [] = some [] :=
  ⟨sanitize_characterization habs hdd, by decide⟩

theorem empty_segment_amended_witness :
    (isAbsolute (str "a//b/") = false ∧ dotdotSeg ∉ splitOnSlash (str "a//b/")) ∧
    (sanitize_rel_path (str "a//b/") =
        some (joinSlash (((splitOnSlash (str "a//b/")).filter
          (fun s => !(s == []))).filter (fun s => !(s == dotSeg)))) ∧
      sanitize_rel_path [] = some []) :=
  ⟨⟨by decide, by decide⟩,
    empty_segment_amended (str "a//b/") (by decide) (by decide)⟩

-- # Theorems: policy, sorting, audit chain, broker


/-- C3: the URL allowlist check holds iff some configured domain matches
exactly after the `https://` prefix, either as the whole remaining URL or
followed by `/`; with the three concrete checks for `example.org`. -/
theorem is_url_allowed_spec :
    (∀ (pol : Policy) (url : Str),
      Policy.is_url_allowed pol url = true ↔
        ∃ d ∈ pol.allowed_domains,
          url = str "https://" ++ d ∨ (str "https://" ++ d ++ [slash]) <+: url) ∧
    (Policy.is_url_allowed examplePolicy (str "https://example.org/data.json") = true ∧
      Policy.is_url_allowed examplePolicy (str "https://evil.example.org/x") = false ∧
      Policy.is_url_allowed examplePolicy (str "https://example.org") = true) := by
  refine ⟨?_, by decide, by decide, by decide⟩
  intro pol url
  simp only [Policy.is_url_allowed, List.any_eq_true, Bool.or_eq_true,
    List.isPrefixOf_iff_prefix, beq_iff_eq]
  constructor
  · rintro ⟨d, hd, h⟩
    exact ⟨d, hd, h.symm⟩
  · rintro ⟨d, hd, h⟩
    exact ⟨d, hd, h.symm⟩

theorem is_url_allowed_spec_witness :
    Policy.is_url_allowed examplePolicy (str "https://example.org/data.json") = true ∧
    ∃ d ∈ examplePolicy.allowed_domains,
      str "https://example.org/data.json" = str "https://" ++ d ∨
        (str "https://" ++ d ++ [slash]) <+: str "https://example.org/data.json" :=
  ⟨by decide,
    (is_url_allowed_spec.1 examplePolicy (str "https://example.org/data.json")).mp
      (by decide)⟩

theorem strLeB_total : ∀ a b : Str, strLeB a b = true ∨ strLeB b a = true
  | [], _ => Or.inl rfl
  | _ :: _, [] => Or.inr rfl
  | a :: as, b :: bs => by
    simp only [strLeB]
    rcases lt_trichotomy a b with h | h | h
    · left; rw [if_pos h]
    · subst h
      simp only [lt_irrefl, if_false]
      exact strLeB_total as bs
    · right; rw [if_pos h]

theorem strLeB_trans : ∀ a b c : Str,
    strLeB a b = true → strLeB b c = true → strLeB a c = true
  | [], _, _, _, _ => rfl
  | _ :: _, [], _, hab, _ => by simp [strLeB] at hab
  | _ :: _, _ :: _, [], _, hbc => by simp [strLeB] at hbc
  | a :: as, b :: bs, c :: cs, hab, hbc => by
    simp only [strLeB] at hab hbc ⊢
    rcases lt_trichotomy a b with h1 | h1 | h1
    · rcases lt_trichotomy b c with h2 | h2 | h2
      · rw [if_pos (lt_trans h1 h2)]
      · subst h2; rw [if_pos h1]
      · rw [if_neg (asymm h2), if_pos h2] at hbc
        exact absurd hbc (by simp)
    · subst h1
      rcases lt_trichotomy a c with h2 | h2 | h2
      · rw [if_pos h2]
      · subst h2
        simp only [lt_irrefl, if_false] at hab hbc ⊢
        exact strLeB_trans as bs cs hab hbc
      · rw [if_neg (asymm h2), if_pos h2] at hbc
        exact absurd hbc (by simp)
    · rw [if_neg (asymm h1), if_pos h1] at hab
      exact absurd hab (by simp)

theorem strLeB_antisymm : ∀ a b : Str,
    strLeB a b = true → strLeB b a = true → a = b
  | [], [], _, _ => rfl
  | [], _ :: _, _, hba => by simp [strLeB] at hba
  | _ :: _, [], hab, _ => by simp [strLeB] at hab
  | a :: as, b :: bs, hab, hba => by
    simp only [strLeB] at hab hba
    rcases lt_trichotomy a b with h | h | h
    · rw [if_neg (asymm h), if_pos h] at hba
      exact absurd hba (by simp)
    · subst h
      simp only [lt_irrefl, if_false] at hab hba
      rw [strLeB_antisymm as bs hab hba]
    · rw [if_neg (asymm h), if_pos h] at hab
      exact absurd hab (by simp)

theorem mem_insertStr {x s : Str} : ∀ {l : List Str}, x ∈ insertStr s l → x = s ∨ x ∈ l := by
  intro l
  induction l with
  | nil => simp [insertStr]
  | cons t ts ih =>
    simp only [insertStr]
    split
    · intro h
      rcases List.mem_cons.mp h with h | h
      · exact Or.inl h
      · exact Or.inr h
    · intro h
      rcases List.mem_cons.mp h with h | h
      · exact Or.inr (h ▸ List.mem_cons_self t ts)
      · rcases ih h with h | h
        · exact Or.inl h
        · exact Or.inr (List.mem_cons_of_mem t h)

theorem pairwise_insertStr {s : Str} : ∀ {l : List Str},
    l.Pairwise (fun a b => strLeB a b = true) →
    (insertStr s l).Pairwise (fun a b => strLeB a b = true) := by
  intro l
  induction l with
  | nil => simp [insertStr]
  | cons t ts ih =>
    intro h
    obtain ⟨ht, hts⟩ := List.pairwise_cons.mp h
    simp only [insertStr]
    split
    · rename_i hle
      refine List.Pairwise.cons ?_ h
      intro x hx
      rcases List.mem_cons.mp hx with hx | hx
      · exact hx ▸ hle
      · exact strLeB_trans s t x hle (ht x hx)
    · rename_i hnle
      have hts' : strLeB t s = true := by
        rcases strLeB_total s t with h' | h'
        · exact absurd h' hnle
        · exact h'
      refine List.Pairwise.cons ?_ (ih hts)
      intro x hx
      rcases mem_insertStr hx with hx | hx
      · exact hx ▸ hts'
      · exact ht x hx

theorem sorted_sortStrs : ∀ l : List Str,
    (sortStrs l).Pairwise (fun a b => strLeB a b = true)
  | [] => List.Pairwise.nil
  | _ :: ss => pairwise_insertStr (sorted_sortStrs ss)

theorem mem_dedupFrom {x : Str} : ∀ {l : List Str} {prev : Str},
    x ∈ dedupFrom prev l → x ∈ l := by
  intro l
  induction l with
  | nil => simp [dedupFrom]
  | cons a rest ih =>
    intro prev h
    simp only [dedupFrom] at h
    split at h
    · exact List.mem_cons_of_mem a (ih h)
    · rcases List.mem_cons.mp h with h | h
      · exact h ▸ List.mem_cons_self a rest
      · exact List.mem_cons_of_mem a (ih h)

theorem pairwise_dedupFrom : ∀ (l : List Str) (prev : Str),
    (∀ x ∈ l, strLeB prev x = true) →
    l.Pairwise (fun a b => strLeB a b = true) →
    (prev :: dedupFrom prev l).Pairwise (fun a b => strLeB a b = true ∧ a ≠ b)
  | [], prev, _, _ => by simp [dedupFrom]
  | a :: rest, prev, hp, hl => by
    obtain ⟨ha, hrest⟩ := List.pairwise_cons.mp hl
    simp only [dedupFrom]
    by_cases heq : a = prev
    · rw [if_pos heq]
      exact pairwise_dedupFrom rest prev
        (fun x hx => heq ▸ ha x hx) hrest
    · rw [if_neg heq]
      have IH := pairwise_dedupFrom rest a ha hrest
      refine List.Pairwise.cons ?_ IH
      intro x hx
      have hpa : strLeB prev a = true := hp a (List.mem_cons_self a rest)
      rcases List.mem_cons.mp hx with hx | hx
      · exact hx ▸ ⟨hpa, Ne.symm heq⟩
      · have hax := (List.pairwise_cons.mp IH).1 x hx
        refine ⟨strLeB_trans prev a x hpa hax.1, ?_⟩
        intro hpx
        exact heq (strLeB_antisymm a prev (hpx ▸ hax.1) hpa)

/-- C7: whenever `list_dir` succeeds, the returned entry list is sorted
ascending (in the lexicographic string order Rust sorts by) and has no
duplicates, whatever the provider returned. -/
theorem list_dir_sorted_nodup (fs : FsHost) (p : Str) (l : List Str)
    (h : (list_dir fs p).result = Except.ok l) :
    l.Pairwise (fun a b => strLeB a b = true) ∧ l.Nodup := by
  have hl : ∃ entries, l = dedupRun (sortStrs entries) := by
    unfold list_dir at h
    cases hs : sanitize_rel_path p with
    | none => rw [hs] at h; simp at h
    | some rel =>
      rw [hs] at h
      dsimp only at h
      cases hf : fs.list_dir rel with
      | error e => rw [hf] at h; simp at h
      | ok entries =>
        rw [hf] at h
        simp at h
        exact ⟨entries, h.symm⟩
  obtain ⟨entries, rfl⟩ := hl
  have hsorted := sorted_sortStrs entries
  cases hd : sortStrs entries with
  | nil => simp [dedupRun]
  | cons a rest =>
    rw [hd] at hsorted
    obtain ⟨ha, hrest⟩ := List.pairwise_cons.mp hsorted
    have hpw := pairwise_dedupFrom rest a ha hrest
    simp only [dedupRun]
    exact ⟨hpw.imp (fun h => h.1), hpw.imp (fun h => h.2)⟩

theorem list_dir_sorted_nodup_witness :
    (list_dir fsFix (str "docs")).result = Except.ok [str "a.txt", str "b.txt"] ∧
    ([str "a.txt", str "b.txt"].Pairwise (fun a b => strLeB a b = true) ∧
      ([str "a.txt", str "b.txt"] : List Str).Nodup) :=
  ⟨rfl, list_dir_sorted_nodup fsFix (str "docs") [str "a.txt", str "b.txt"] rfl⟩

theorem appendAccs_eq_chain (msgs : List Str) : ∀ log : AuditLog,
    appendAccs log msgs = chainAccsFromU chainUpdate log.state msgs := by
  induction msgs with
  | nil => intro log; rfl
  | cons m ms ih =>
    intro log
    simp only [appendAccs, chainAccsFromU, AuditLog.append, ih]

/-- C4: the accumulator sequence produced by appending a message sequence to
a fresh log is a function of the messages alone — two fresh logs (whatever
their append-mode sinks already hold) produce identical sequences. -/
theorem audit_chain_deterministic (e1 e2 : List Str) (msgs : List Str) :
    appendAccs (AuditLog.new e1) msgs = appendAccs (AuditLog.new e2) msgs := by
  rw [appendAccs_eq_chain, appendAccs_eq_chain]
  rfl

/-- C10: `append` folds the message into the chain state before writing, so
on a write (or flush) failure it returns the error but the state has
advanced, the failed message reaches no file line, and the next successful
append stores an accumulator folding in the lost message. -/
theorem append_advances_chain_on_failure (log : AuditLog) (msg e msg2 : Str) :
    (AuditLog.append log msg (IoOutcome.writeFail e)).2 = Except.error e ∧
    (AuditLog.append log msg (IoOutcome.writeFail e)).1.state =
      chainUpdate log.state msg ∧
    (AuditLog.append log msg (IoOutcome.writeFail e)).1.file = log.file ∧
    (AuditLog.append (AuditLog.append log msg (IoOutcome.writeFail e)).1 msg2
        IoOutcome.ok).1.state = chainUpdate (chainUpdate log.state msg) msg2 ∧
    (AuditLog.append (AuditLog.append log msg (IoOutcome.writeFail e)).1 msg2
        IoOutcome.ok).1.file =
      log.file ++ [auditLine (chainUpdate (chainUpdate log.state msg) msg2) msg2] ∧
    (AuditLog.append log msg (IoOutcome.flushFail e)).2 = Except.error e ∧
    (AuditLog.append log msg (IoOutcome.flushFail e)).1.state =
      chainUpdate log.state msg := by
  simp [AuditLog.append]

theorem chainUpdate_lt (s : Nat) (m : Str) : chainUpdate s m < M64 := by
  unfold chainUpdate sipHash13
  exact Nat.mod_lt _ (by decide)

theorem strEnc_inj : Function.Injective strEnc := by
  intro a
  induction a with
  | nil =>
    intro b h
    cases b with
    | nil => rfl
    | cons d ds => simp [strEnc] at h
  | cons c cs ih =>
    intro b h
    cases b with
    | nil => simp [strEnc] at h
    | cons d ds =>
      simp only [strEnc, Nat.add_right_cancel_iff] at h
      obtain ⟨hc, hcs⟩ := Nat.pair_eq_pair.mp h
      have hcd : c = d := Char.ext (UInt32.ext hc)
      rw [hcd, ih hcs]

theorem injUpd_inj_msg (s : Nat) : Function.Injective (injUpd s) := by
  intro m1 m2 h
  exact strEnc_inj (Nat.pair_eq_pair.mp h).2

theorem injUpd_inj_state (m : Str) : Function.Injective (fun s => injUpd s m) := by
  intro s1 s2 h
  exact (Nat.pair_eq_pair.mp h).1

theorem chainAccsFromU_ne_of_state_ne (u : Nat → Str → Nat)
    (hst : ∀ m : Str, Function.Injective fun s => u s m) :
    ∀ (msgs : List Str) (s s' : Nat), s ≠ s' → ∀ k, k < msgs.length →
      (chainAccsFromU u s msgs).getD k 0 ≠ (chainAccsFromU u s' msgs).getD k 0 := by
  intro msgs
  induction msgs with
  | nil => intro s s' _ k hk; simp at hk
  | cons m ms ih =>
    intro s s' hss k hk
    have hum : u s m ≠ u s' m := fun h => hss (hst m h)
    cases k with
    | zero => simpa [chainAccsFromU] using hum
    | succ k' =>
      simp only [chainAccsFromU, List.getD_cons_succ]
      exact ih (u s m) (u s' m) hum k' (by simpa using hk)

theorem chainAccsFromU_tamper (u : Nat → Str → Nat)
    (hmsg : ∀ s : Nat, Function.Injective (u s))
    (hst : ∀ m : Str, Function.Injective fun s => u s m) :
    ∀ (msgs : List Str) (s : Nat) (n : Nat) (m' : Str), n < msgs.length →
      m' ≠ msgs.getD n [] → ∀ k, n ≤ k → k < msgs.length →
      (chainAccsFromU u s (msgs.set n m')).getD k 0 ≠
        (chainAccsFromU u s msgs).getD k 0 := by
  intro msgs
  induction msgs with
  | nil => intro s n m' hn; simp at hn
  | cons m ms ih =>
    intro s n m' hn hne k hnk hk
    cases n with
    | zero =>
      have hne' : m' ≠ m := by simpa using hne
      have hum : u s m' ≠ u s m := fun h => hne' (hmsg s h)
      cases k with
      | zero => simpa [chainAccsFromU] using hum
      | succ k' =>
        simp only [List.set_cons_zero, chainAccsFromU, List.getD_cons_succ]
        exact chainAccsFromU_ne_of_state_ne u hst ms (u s m') (u s m) hum k'
          (by simpa using hk)
    | succ n' =>
      cases k with
      | zero => exact absurd hnk (by simp)
      | succ k' =>
        simp only [List.set_cons_succ, chainAccsFromU, List.getD_cons_succ]
        exact ih (u s m) n' m' (by simpa using hn) (by simpa using hne) k'
          (Nat.le_of_succ_le_succ hnk) (by simpa using hk)

/-- C5 counterexample: the claim fails for the program's chain fold — the
64-bit accumulator update cannot be injective on the infinite message
space, so some replacement by a different message leaves an accumulator
value unchanged. -/
theorem chain_tamper_detection_counterexample :
    ¬ (∀ (msgs : List Str) (n : Nat) (m' : Str), n < msgs.length →
        m' ≠ msgs.getD n [] → ∀ k, n ≤ k → k < msgs.length →
        (chainAccs (msgs.set n m')).getD k 0 ≠ (chainAccs msgs).getD k 0) := by
  intro H
  obtain ⟨a, b, hab, hfab⟩ := Finite.exists_ne_map_eq_of_infinite
    (fun m : Str => (⟨chainUpdate chainNew m, chainUpdate_lt chainNew m⟩ : Fin M64))
  have hval : chainUpdate chainNew a = chainUpdate chainNew b :=
    congrArg Fin.val hfab
  have hba : b ≠ ([a] : List Str).getD 0 [] := by simpa using hab.symm
  have := H [a] 0 b (by simp) hba 0 (Nat.le_refl 0) (by simp)
  apply this
  simp [chainAccs, chainAccsFromU, hval]

/-- C5 amended: tamper detection holds for the chain fold exactly under the
collision-freeness the accumulator is assumed to have — for every update
function injective in the message and in the prior state, replacing the
message at index `n` by a different one changes every accumulator at
indices `n` and beyond.  The placeholder 64-bit hash cannot satisfy this
premise (see the counterexample), a cryptographic replacement is assumed
to. -/
theorem chain_tamper_detection_amended (u : Nat → Str → Nat)
    (hmsg : ∀ s : Nat, Function.Injective (u s))
    (hst : ∀ m : Str, Function.Injective fun s => u s m)
    (msgs : List Str) (n : Nat) (m' : Str) (hn : n < msgs.length)
    (hne : m' ≠ msgs.getD n []) (k : Nat) (hnk : n ≤ k) (hk : k < msgs.length) :
    (chainAccsFromU u chainNew (msgs.set n m')).getD k 0 ≠
      (chainAccsFromU u chainNew msgs).getD k 0 :=
  chainAccsFromU_tamper u hmsg hst msgs chainNew n m' hn hne k hnk hk

theorem chain_tamper_detection_amended_witness :
    (0 < ([str "a"] : List Str).length ∧ str "b" ≠ ([str "a"] : List Str).getD 0 []) ∧
    (chainAccsFromU injUpd chainNew (([str "a"] : List Str).set 0 (str "b"))).getD 0 0 ≠
      (chainAccsFromU injUpd chainNew [str "a"]).getD 0 0 :=
  ⟨⟨by decide, by decide⟩,
    chain_tamper_detection_amended injUpd injUpd_inj_msg injUpd_inj_state
      [str "a"] 0 (str "b") (by decide) (by decide) 0 (Nat.le_refl 0) (by decide)⟩

/-- C8 counterexample: with the broker's stub network host, a policy-denied
URL surfaces to the `fetch_json` caller as the generic network-failure
variant `CoreError.Net` — the same constructor an unreachable allowed URL
produces — not as a distinct policy-denial variant (the `CoreError` enum
has none). -/
theorem policy_denied_variant_counterexample :
    (fetch_json (stubNet brokerPolicy) (str "https://denied.example/x")).result =
      Except.error (CoreError.Net (str "blocked by policy")) ∧
    (fetch_json (stubNet brokerPolicy) (str "https://example.org/missing")).result =
      Except.error (CoreError.Net (str "network not implemented")) :=
  ⟨rfl, rfl⟩

/-- C8 amended: every URL the broker's policy rejects surfaces to the
`fetch_json` caller as `CoreError.Net "blocked by policy"` — policy denial
is distinguishable from other network failures only by the detail string,
not by a distinct error variant. -/
theorem policy_denied_variant_amended (url : Str)
    (h : Policy.is_url_allowed brokerPolicy url = false) :
    (fetch_json (stubNet brokerPolicy) url).result =
      Except.error (CoreError.Net (str "blocked by policy")) := by
  simp [fetch_json, stubNet, StubNetHost.get_text, h]

theorem policy_denied_variant_amended_witness :
    Policy.is_url_allowed brokerPolicy (str "https://denied.example/x") = false ∧
    (fetch_json (stubNet brokerPolicy) (str "https://denied.example/x")).result =
      Except.error (CoreError.Net (str "blocked by policy")) :=
  ⟨by decide, policy_denied_variant_amended (str "https://denied.example/x") (by decide)⟩

/-- C9 counterexample: a mediated read whose audit write fails still returns
`Ok` to the caller and the audit line is lost — the write failure is
silently discarded, not surfaced. -/
theorem audit_failure_silent_counterexample :
    (runMediated (read_text fsFix (str "docs/readme.txt")) (AuditLog.new [])
        (IoOutcome.writeFail (str "disk full"))).1 = Except.ok (str "hello") ∧
    (runMediated (read_text fsFix (str "docs/readme.txt")) (AuditLog.new [])
        (IoOutcome.writeFail (str "disk full"))).2.file = [] :=
  ⟨rfl, rfl⟩

/-- C9 amended: audit sink failures are never surfaced through mediated
operations: `LogHost::event` has no error channel and `StdLogHost::event`
discards the result of `AuditLog::append`, so the caller's result is
exactly the core result whatever the sink outcome; the append error exists
but only `append`'s direct caller sees it. -/
theorem audit_failure_silent_amended (fs : FsHost) (p c : Str)
    (log : AuditLog) (e msg : Str) :
    (runMediated (read_text fs p) log (IoOutcome.writeFail e)).1 =
      (read_text fs p).result ∧
    (runMediated (list_dir fs p) log (IoOutcome.writeFail e)).1 =
      (list_dir fs p).result ∧
    (runMediated (write_text fs p c) log (IoOutcome.writeFail e)).1 =
      (write_text fs p c).result ∧
    (runMediated (read_text fs p) log (IoOutcome.flushFail e)).1 =
      (read_text fs p).result ∧
    (AuditLog.append log msg (IoOutcome.writeFail e)).2 = Except.error e ∧
    StdLogHost.event log (IoOutcome.writeFail e) msg =
      (AuditLog.append log msg (IoOutcome.writeFail e)).1 :=
  ⟨rfl, rfl, rfl, rfl, rfl, rfl⟩
